import Mathlib

/-!
Verification of the AT93C86A SPI EEPROM driver (`spi_flash.c`).

The development shallowly embeds the driver's bit-framing functions, its
chip-select / delay effect traces, and a functional device model, and proves
the specification's claims about them.

Machine integers are modelled as `Nat` with explicit reductions:
`% 65536` for a `uint16_t` value or parameter, `% 4294967296` for `uint32_t`,
`% 256` where a byte is formed.  Bitwise operators are kept exactly as in the
C source (`&&&`, `|||`, `<<<`, `>>>`).
-/

/-! ### Arithmetic helpers -/

/-- Masking with `0x3FF` is reduction modulo 1024. -/
theorem and_1023_eq_mod (x : Nat) : x &&& 1023 = x % 1024 := by
  have h := Nat.and_pow_two_sub_one_eq_mod x 10
  norm_num at h
  exact h

/-- Masking with `0xFFFF` is reduction modulo 65536. -/
theorem and_65535_eq_mod (x : Nat) : x &&& 65535 = x % 65536 := by
  have h := Nat.and_pow_two_sub_one_eq_mod x 16
  norm_num at h
  exact h

/-- Masking with `0xFF` is reduction modulo 256. -/
theorem and_255_eq_mod (x : Nat) : x &&& 255 = x % 256 := by
  have h := Nat.and_pow_two_sub_one_eq_mod x 8
  norm_num at h
  exact h

/-! ### Command opcodes (from the `#define`s in `spi_flash.c`) -/

def EEPROM_CMD_READ : Nat := 6    -- 0b110
def EEPROM_CMD_WRITE : Nat := 5   -- 0b101
def EEPROM_CMD_ERASE : Nat := 7   -- 0b111
def EEPROM_CMD_WEN : Nat := 19    -- 0b10011
def EEPROM_CMD_WDS : Nat := 16    -- 0b10000

/-! ### Bit framer

Each `..Frame` function embeds the construction of `cmdbuf` in the
corresponding C function.  A `Nat` argument standing for a `uint16_t`
parameter is reduced `% 65536` at its first use, mirroring the C call
conversion; a `uint16_t` command variable is reduced `% 65536`, a
`uint32_t` one `% 4294967296`. -/

/-- Splitting a 16-bit command into two MSB-first bytes:
`uint8_t cmdbuf[2] = \x7bcmd >> 8, cmd & 0xFF\x7d`. -/
def bytes2 (cmd : Nat) : List Nat := [cmd >>> 8, cmd &&& 255]

/-- Command word of `eeprom_write_enable`: `cmd = EEPROM_CMD_WEN << 11`. -/
def wenCmd : Nat := (EEPROM_CMD_WEN <<< 11) % 65536

/-- Frame transmitted by `eeprom_write_enable`. -/
def wenFrame : List Nat := bytes2 wenCmd

/-- Command word of `eeprom_write_disable`: `cmd = EEPROM_CMD_WDS << 11`. -/
def wdsCmd : Nat := (EEPROM_CMD_WDS <<< 11) % 65536

/-- Frame transmitted by `eeprom_write_disable`. -/
def wdsFrame : List Nat := bytes2 wdsCmd

/-- Command word of `eeprom_read`:
`cmd = (EEPROM_CMD_READ << 10) | (addr & 0x03FF)`. -/
def readCmd (addr : Nat) : Nat :=
  ((EEPROM_CMD_READ <<< 10) ||| ((addr % 65536) &&& 1023)) % 65536

/-- Command-phase frame transmitted by `eeprom_read`. -/
def readCmdFrame (addr : Nat) : List Nat := bytes2 (readCmd addr)

/-- Command word of `eeprom_erase`:
`cmd = (EEPROM_CMD_ERASE << 13) | ((addr & 0x03FF) << 3)`. -/
def eraseCmd (addr : Nat) : Nat :=
  ((EEPROM_CMD_ERASE <<< 13) ||| (((addr % 65536) &&& 1023) <<< 3)) % 65536

/-- Frame transmitted by `eeprom_erase`. -/
def eraseFrame (addr : Nat) : List Nat := bytes2 (eraseCmd addr)

/-- Command word of `eeprom_write`:
`cmd = ((uint32_t)EEPROM_CMD_WRITE << 26) | ((addr & 0x03FF) << 16) | (data & 0xFFFF)`. -/
def writeCmd (addr data : Nat) : Nat :=
  ((EEPROM_CMD_WRITE <<< 26) ||| (((addr % 65536) &&& 1023) <<< 16) |||
    ((data % 65536) &&& 65535)) % 4294967296

/-- Frame transmitted by `eeprom_write`: the 32-bit command split into
4 MSB-first bytes. -/
def writeFrame (addr data : Nat) : List Nat :=
  [(writeCmd addr data >>> 24) &&& 255,
   (writeCmd addr data >>> 16) &&& 255,
   (writeCmd addr data >>> 8) &&& 255,
   writeCmd addr data &&& 255]

/-- Response decoding in `eeprom_read`:
`*data = ((uint16_t)(databuf[0] << 9)) | ((uint16_t)(databuf[1] << 1)) | ((databuf[2] >> 7) & 0x01)`.
The two inner casts and the final store into the `uint16_t *data` are the
`% 65536` reductions. -/
def decodeResponse (b0 b1 b2 : Nat) : Nat :=
  (((b0 <<< 9) % 65536) ||| ((b1 <<< 1) % 65536) ||| ((b2 >>> 7) &&& 1)) % 65536

/-- Reference decoding formula taken from the specification's words
(claim C1): right-shift the assembled 24-bit receive buffer by 7 bits and
mask to 16 bits. -/
def specDecodeResponse (b0 b1 b2 : Nat) : Nat :=
  (((b0 <<< 16) ||| (b1 <<< 8) ||| b2) >>> 7) &&& 65535

/-- MSB-first byte sequence of a 32-bit value, as named by claim C2. -/
def msbBytes4 (n : Nat) : List Nat :=
  [(n >>> 24) &&& 255, (n >>> 16) &&& 255, (n >>> 8) &&& 255, n &&& 255]

/-! ### Claim C1 -/

/-- C1: for every 3-byte response buffer, the decoded word produced by
`eeprom_read` equals the spec's reference formula
`((b0<<16 | b1<<8 | b2) >> 7) & 0xFFFF`. -/
theorem decodeResponse_eq_spec (b0 b1 b2 : Nat)
    (h0 : b0 < 256) (h1 : b1 < 256) (h2 : b2 < 256) :
    decodeResponse b0 b1 b2 = specDecodeResponse b0 b1 b2 := by
  unfold decodeResponse specDecodeResponse
  have e0 : (b0 <<< 9) % 65536 = 2 ^ 9 * (b0 % 128) := by
    rw [Nat.shiftLeft_eq]
    norm_num
    omega
  have e1 : (b1 <<< 1) % 65536 = 2 * b1 := by
    rw [Nat.shiftLeft_eq]
    norm_num
    omega
  have e2 : (b2 >>> 7) &&& 1 = b2 / 128 := by
    rw [Nat.and_one_is_mod, Nat.shiftRight_eq_div_pow]
    norm_num
    omega
  rw [e0, e1, e2]
  have d1 : 2 ^ 9 * (b0 % 128) ||| 2 * b1 = 2 ^ 9 * (b0 % 128) + 2 * b1 :=
    (Nat.mul_add_lt_is_or (by omega) _).symm
  rw [d1]
  have hrw : 2 ^ 9 * (b0 % 128) + 2 * b1 = 2 ^ 1 * (2 ^ 8 * (b0 % 128) + b1) := by
    ring
  have d2 : 2 ^ 9 * (b0 % 128) + 2 * b1 ||| b2 / 128 =
      2 ^ 9 * (b0 % 128) + 2 * b1 + b2 / 128 := by
    rw [hrw]
    exact (Nat.mul_add_lt_is_or (by omega) _).symm
  rw [d2]
  have s0 : b0 <<< 16 = 2 ^ 16 * b0 := by rw [Nat.shiftLeft_eq]; ring
  have s1 : b1 <<< 8 = 2 ^ 8 * b1 := by rw [Nat.shiftLeft_eq]; ring
  rw [s0, s1]
  have d3 : 2 ^ 16 * b0 ||| 2 ^ 8 * b1 = 2 ^ 16 * b0 + 2 ^ 8 * b1 :=
    (Nat.mul_add_lt_is_or (by omega) _).symm
  rw [d3]
  have hrw2 : 2 ^ 16 * b0 + 2 ^ 8 * b1 = 2 ^ 8 * (2 ^ 8 * b0 + b1) := by ring
  have d4 : 2 ^ 16 * b0 + 2 ^ 8 * b1 ||| b2 = 2 ^ 16 * b0 + 2 ^ 8 * b1 + b2 := by
    rw [hrw2]
    exact (Nat.mul_add_lt_is_or (by omega) _).symm
  rw [d4, Nat.shiftRight_eq_div_pow, and_65535_eq_mod]
  norm_num
  omega

/-- Witness for C1 at a concrete response buffer. -/
theorem decodeResponse_eq_spec_witness :
    (18 : Nat) < 256 ∧ (52 : Nat) < 256 ∧ (128 : Nat) < 256 ∧
      decodeResponse 18 52 128 = specDecodeResponse 18 52 128 :=
  ⟨by decide, by decide, by decide,
   decodeResponse_eq_spec 18 52 128 (by decide) (by decide) (by decide)⟩

/-! ### Claim C2 -/

/-- C2 counterexample: the frame `eeprom_write` transmits for
`addr = 0x10, data = 0xDEAD` is not `0x94 0x10 0xDE 0xAD` as the claim
states — the command `(0b101<<26) | (0x10<<16) | 0xDEAD = 0x1410DEAD` has
top byte `0x14`, not `0x94`. -/
theorem writeFrame_0x10_not_spec_bytes :
    writeFrame 0x10 0xDEAD ≠ [0x94, 0x10, 0xDE, 0xAD] := by decide

/-- C2 amended: the 4-byte frame transmitted by `eeprom_write` for
`addr = 0x10, data = 0xDEAD` equals the MSB-first byte sequence of
`cmd = (0b101<<26) | (0x10<<16) | 0xDEAD`, and that sequence is
`0x14 0x10 0xDE 0xAD`. -/
theorem writeFrame_0x10_0xDEAD :
    writeFrame 0x10 0xDEAD = msbBytes4 ((5 <<< 26) ||| (0x10 <<< 16) ||| 0xDEAD) ∧
      writeFrame 0x10 0xDEAD = [0x14, 0x10, 0xDE, 0xAD] := by
  constructor <;> decide

/-! ### Claim C5 -/

/-- Adding a multiple of 1024 to a (16-bit reduced) address does not change
its 10-bit mask. -/
theorem mask1023_add_1024_mul (addr k : Nat) :
    ((addr + 1024 * k) % 65536) &&& 1023 = (addr % 65536) &&& 1023 := by
  rw [and_1023_eq_mod, and_1023_eq_mod]
  omega

/-- C5: for every address and every non-negative `k`, the command frames for
`addr + 1024*k` are bit-identical to the frames for `addr`, for ReadWord,
WriteWord and EraseWord. -/
theorem frames_mask_address (addr k : Nat) :
    readCmdFrame (addr + 1024 * k) = readCmdFrame addr ∧
      (∀ data, writeFrame (addr + 1024 * k) data = writeFrame addr data) ∧
      eraseFrame (addr + 1024 * k) = eraseFrame addr := by
  refine ⟨?_, fun data => ?_, ?_⟩
  · unfold readCmdFrame readCmd
    rw [mask1023_add_1024_mul]
  · unfold writeFrame writeCmd
    rw [mask1023_add_1024_mul]
  · unfold eraseFrame eraseCmd
    rw [mask1023_add_1024_mul]

/-! ### Claim C7 -/

/-- C7: enable/disable/erase and the read command phase always transmit
exactly 2 bytes; `eeprom_write` always transmits exactly 4 bytes. -/
theorem frame_lengths (addr data : Nat) :
    wenFrame.length = 2 ∧ wdsFrame.length = 2 ∧
      (readCmdFrame addr).length = 2 ∧ (eraseFrame addr).length = 2 ∧
      (writeFrame addr data).length = 4 :=
  ⟨rfl, rfl, rfl, rfl, rfl⟩

/-! ### Effect traces

Each driver function is given an effect-trace semantics: the ordered list of
chip-select transitions (`csA` = `cs_select`, `csD` = `cs_deselect`), SPI
transfers (`spiW frame` = `spi_write_blocking`, `spiR n` = `spi_read_blocking`
of `n` bytes) and millisecond sleeps (`slp ms` = `sleep_ms`) it performs.
The sub-microsecond delay inside `cs_select`/`cs_deselect` is part of the
`csA`/`csD` event itself; console output is out of scope. -/

inductive Ev : Type where
  | csA : Ev
  | csD : Ev
  | spiW : List Nat → Ev
  | spiR : Nat → Ev
  | slp : Nat → Ev
deriving DecidableEq

/-- Trace of `eeprom_write_enable`. -/
def wenTrace : List Ev := [Ev.csD, Ev.csA, Ev.spiW wenFrame, Ev.csD]

/-- Trace of `eeprom_write_disable`. -/
def wdsTrace : List Ev := [Ev.csD, Ev.csA, Ev.spiW wdsFrame, Ev.csD]

/-- Trace of `eeprom_read`; the chip-select bracketing depends on the global
`dump_flag` (`flag`). -/
def readTrace (flag : Bool) (addr : Nat) : List Ev :=
  (if flag then [] else [Ev.csD, Ev.csA]) ++
    [Ev.spiW (readCmdFrame addr), Ev.spiR 3] ++
    (if flag then [] else [Ev.csD, Ev.csA])

/-- Trace of `eeprom_write`: transfer, `sleep_ms(7)` settle, closing
deassert, extra assert "for repeatability". -/
def writeTrace (addr data : Nat) : List Ev :=
  [Ev.csD, Ev.csA, Ev.spiW (writeFrame addr data), Ev.slp 7, Ev.csD, Ev.csA]

/-- Trace of `eeprom_erase`: transfer, closing deassert, then `sleep_ms(4)`. -/
def eraseTrace (addr : Nat) : List Ev :=
  [Ev.csD, Ev.csA, Ev.spiW (eraseFrame addr), Ev.csD, Ev.slp 4]

/-- Loop body iteration of `eeprom_write_buf`: `eeprom_write(start_addr + i, buf[i])`
followed by `cs_select`; `count` is the remaining trip count (`len - i`). -/
def writeBufTraceGo (start : Nat) (buf : Nat → Nat) (i count : Nat) : List Ev :=
  match count with
  | 0 => []
  | count + 1 =>
    writeTrace (start + i) (buf i) ++ [Ev.csA] ++ writeBufTraceGo start buf (i + 1) count

/-- Trace of `eeprom_write_buf(start_addr, buf, len)`. -/
def writeBufTrace (start : Nat) (buf : Nat → Nat) (len : Nat) : List Ev :=
  writeBufTraceGo start buf 0 len

/-- Loop of `eeprom_paste`: `eeprom_write(addr, buffer[addr])` for
`addr = 0 .. 0x3FF`. -/
def pasteTraceGo (buf : Nat → Nat) (addr count : Nat) : List Ev :=
  match count with
  | 0 => []
  | count + 1 => writeTrace addr (buf addr) ++ pasteTraceGo buf (addr + 1) count

/-- Trace of `eeprom_paste(buffer)`. -/
def pasteTrace (buf : Nat → Nat) : List Ev := pasteTraceGo buf 0 1024

/-- Loop of `eeprom_dump`: with `dump_flag` set, each iteration toggles the
chip select itself and calls `eeprom_read` (which then skips its own
bracketing). -/
def dumpTraceGo (addr count : Nat) : List Ev :=
  match count with
  | 0 => []
  | count + 1 => [Ev.csD, Ev.csA] ++ readTrace true addr ++ dumpTraceGo (addr + 1) count

/-- Trace of `eeprom_dump`. -/
def dumpTrace : List Ev := dumpTraceGo 0 1024

/-- Loop of `eeprom_copy`: identical chip-select/bus behaviour to
`eeprom_dump` (it stores rather than prints each word). -/
def copyTraceGo (addr count : Nat) : List Ev :=
  match count with
  | 0 => []
  | count + 1 => [Ev.csD, Ev.csA] ++ readTrace true addr ++ copyTraceGo (addr + 1) count

/-- Trace of `eeprom_copy`. -/
def copyTrace : List Ev := copyTraceGo 0 1024

/-! ### Claim C3 -/

/-- Formalisation of "the settle delay strictly precedes the closing
chip-select deassert": some `sleep_ms` event occurs strictly before a
chip-select deassert that no later deassert follows (i.e. the closing one). -/
def settlePrecedesClose (tr : List Ev) : Prop :=
  ∃ j k, j < k ∧ (∃ d, tr.get? j = some (Ev.slp d)) ∧ tr.get? k = some Ev.csD ∧
    ∀ l, k < l → tr.get? l ≠ some Ev.csD

/-- Dual shape for the amended claim: the closing deassert occurs strictly
before a settle delay. -/
def settleFollowsClose (tr : List Ev) : Prop :=
  ∃ k j, k < j ∧ tr.get? k = some Ev.csD ∧
    (∀ l, k < l → tr.get? l ≠ some Ev.csD) ∧ ∃ d, tr.get? j = some (Ev.slp d)

/-- C3 counterexample: in the effect trace of `eeprom_erase` the settle
delay (`sleep_ms(4)`) does not precede the closing chip-select deassert —
the code deasserts first and sleeps afterwards. -/
theorem erase_settle_not_before_close :
    ¬ settlePrecedesClose (eraseTrace 0x10) := by
  rintro ⟨j, k, hjk, ⟨d, hj⟩, hk, -⟩
  have hlen : (eraseTrace 0x10).length = 5 := rfl
  have hj5 : j < 5 := by
    by_contra hge
    rw [List.get?_eq_none.mpr (by omega)] at hj
    exact Option.noConfusion hj
  interval_cases j <;> simp [eraseTrace] at hj
  have : (eraseTrace 0x10).get? k = none := List.get?_eq_none.mpr (by omega)
  rw [this] at hk
  exact Option.noConfusion hk

/-- C3 amended: for every WriteWord transaction the settle delay
(`sleep_ms(7)`) strictly precedes the closing chip-select deassert, while
for every EraseWord transaction the closing deassert strictly precedes the
settle delay (`sleep_ms(4)`): `eeprom_erase` closes the session first and
then blocks. -/
theorem settle_delay_ordering (addr data : Nat) :
    settlePrecedesClose (writeTrace addr data) ∧
      settleFollowsClose (eraseTrace addr) := by
  constructor
  · refine ⟨3, 4, by omega, ⟨7, rfl⟩, rfl, ?_⟩
    intro l hl
    have h56 : l = 5 ∨ 6 ≤ l := by omega
    rcases h56 with h | h
    · subst h
      simp [writeTrace]
    · rw [List.get?_eq_none.mpr (by simp [writeTrace]; omega)]
      simp
  · refine ⟨3, 4, by omega, rfl, ?_, ⟨4, rfl⟩⟩
    intro l hl
    have h45 : l = 4 ∨ 5 ≤ l := by omega
    rcases h45 with h | h
    · subst h
      simp [eraseTrace]
    · rw [List.get?_eq_none.mpr (by simp [eraseTrace]; omega)]
      simp

/-! ### Claim C9

Each public operation is modelled as a transformer of the global
`dump_flag`: it receives the flag value at entry and yields its effect
trace together with the flag value at exit.  Only `eeprom_dump` and
`eeprom_copy` assign the flag (to 1 at entry, back to 0 before returning);
no other function mentions it, so their exit value equals their entry
value. -/

def eeprom_write_enableE (flag : Bool) : List Ev × Bool := (wenTrace, flag)

def eeprom_write_disableE (flag : Bool) : List Ev × Bool := (wdsTrace, flag)

def eeprom_readE (flag : Bool) (addr : Nat) : List Ev × Bool :=
  (readTrace flag addr, flag)

def eeprom_writeE (flag : Bool) (addr data : Nat) : List Ev × Bool :=
  (writeTrace addr data, flag)

def eeprom_eraseE (flag : Bool) (addr : Nat) : List Ev × Bool :=
  (eraseTrace addr, flag)

def eeprom_write_bufE (flag : Bool) (start : Nat) (buf : Nat → Nat)
    (len : Nat) : List Ev × Bool :=
  (writeBufTrace start buf len, flag)

def eeprom_pasteE (flag : Bool) (buf : Nat → Nat) : List Ev × Bool :=
  (pasteTrace buf, flag)

def eeprom_dumpE (flag : Bool) : List Ev × Bool := (dumpTrace, false)

def eeprom_copyE (flag : Bool) : List Ev × Bool := (copyTrace, false)

/-- C9: every operation entered with `dump_flag = 0` exits with
`dump_flag = 0` (the non-bulk operations preserve any flag value, and
`eeprom_dump`/`eeprom_copy` — the only writers of the flag — always restore
it to 0 before returning); consequently, outside a dump or copy,
`eeprom_read` brackets its own transfer with a chip-select deassert/assert
pair on both sides. -/
theorem dump_flag_invariant :
    (∀ f, (eeprom_write_enableE f).2 = f) ∧
      (∀ f, (eeprom_write_disableE f).2 = f) ∧
      (∀ f addr, (eeprom_readE f addr).2 = f) ∧
      (∀ f addr data, (eeprom_writeE f addr data).2 = f) ∧
      (∀ f addr, (eeprom_eraseE f addr).2 = f) ∧
      (∀ f start buf len, (eeprom_write_bufE f start buf len).2 = f) ∧
      (∀ f buf, (eeprom_pasteE f buf).2 = f) ∧
      (∀ f, (eeprom_dumpE f).2 = false) ∧
      (∀ f, (eeprom_copyE f).2 = false) ∧
      (∀ addr, (eeprom_readE false addr).1 =
        [Ev.csD, Ev.csA] ++ [Ev.spiW (readCmdFrame addr), Ev.spiR 3] ++
          [Ev.csD, Ev.csA]) :=
  ⟨fun _ => rfl, fun _ => rfl, fun _ _ => rfl, fun _ _ _ => rfl,
   fun _ _ => rfl, fun _ _ _ _ => rfl, fun _ _ => rfl, fun _ => rfl,
   fun _ => rfl, fun _ => rfl⟩

/-! ### Claim C10 -/

/-- Command frames transmitted in a trace, in order. -/
def framesOf (tr : List Ev) : List (List Nat) :=
  tr.filterMap fun e =>
    match e with
    | Ev.spiW bs => some bs
    | _ => none

theorem framesOf_append (t1 t2 : List Ev) :
    framesOf (t1 ++ t2) = framesOf t1 ++ framesOf t2 :=
  List.filterMap_append t1 t2 _

theorem framesOf_writeTrace (a d : Nat) :
    framesOf (writeTrace a d) = [writeFrame a d] := rfl

/-- A WriteWord frame is 4 bytes long. -/
theorem writeFrame_length (a d : Nat) : (writeFrame a d).length = 4 := rfl

theorem framesOf_pasteTraceGo (buf : Nat → Nat) :
    ∀ count addr, framesOf (pasteTraceGo buf addr count) =
      (List.range' addr count).map fun x => writeFrame x (buf x) := by
  intro count
  induction count with
  | zero => intro addr; rfl
  | succ n ih =>
    intro addr
    rw [pasteTraceGo, framesOf_append, framesOf_writeTrace, ih,
      List.range'_succ, List.map_cons]
    rfl

theorem framesOf_writeBufTraceGo (buf : Nat → Nat) :
    ∀ count i, framesOf (writeBufTraceGo 0 buf i count) =
      (List.range' i count).map fun x => writeFrame x (buf x) := by
  intro count
  induction count with
  | zero => intro i; rfl
  | succ n ih =>
    intro i
    rw [writeBufTraceGo, framesOf_append, framesOf_append,
      framesOf_writeTrace, ih, List.range'_succ, List.map_cons, Nat.zero_add]
    rfl

/-- C10: `eeprom_paste(buf)` and `eeprom_write_buf(0, buf, 1024)` transmit
exactly the same sequence of command frames — 1024 four-byte WriteWord
frames for addresses 0 through 1023 in ascending order.  (Their traces
differ only in the extra `cs_select` `eeprom_write_buf` issues after each
word, which contributes no frame.) -/
theorem paste_write_buf_same_frames (buf : Nat → Nat) :
    framesOf (pasteTrace buf) = framesOf (writeBufTrace 0 buf 1024) ∧
      framesOf (pasteTrace buf) =
        ((List.range 1024).map fun a => writeFrame a (buf a)) ∧
      ∀ bs ∈ framesOf (pasteTrace buf), bs.length = 4 := by
  have hp : framesOf (pasteTrace buf) =
      (List.range' 0 1024).map fun x => writeFrame x (buf x) :=
    framesOf_pasteTraceGo buf 1024 0
  have hw : framesOf (writeBufTrace 0 buf 1024) =
      (List.range' 0 1024).map fun x => writeFrame x (buf x) :=
    framesOf_writeBufTraceGo buf 1024 0
  refine ⟨hp.trans hw.symm, ?_, ?_⟩
  · rw [hp, List.range_eq_range']
  · intro bs hbs
    rw [hp] at hbs
    obtain ⟨x, -, hx⟩ := List.mem_map.mp hbs
    rw [← hx]
    exact writeFrame_length x (buf x)

/-! ### Functional device model

The algebraic claims C4, C6 and C8 are stated "over a device model where
`eeprom_write` stores its word at the masked address and `eeprom_read`
returns the stored word".  `Mem` maps each canonical slot
(`addr & 0x03FF`) to the stored 16-bit word. -/

def Mem : Type := Nat → Nat

/-- Device model of `eeprom_write(addr, data)`: store `data & 0xFFFF` at
slot `addr & 0x03FF` (the `Nat` argument standing for the `uint16_t`
parameter is reduced `% 65536` first). -/
def devWrite (m : Mem) (addr data : Nat) : Mem :=
  fun x => if x = (addr % 65536) &&& 1023 then (data % 65536) &&& 65535 else m x

/-- Device model of `eeprom_read(addr)`: return the word stored at slot
`addr & 0x03FF`. -/
def devRead (m : Mem) (addr : Nat) : Nat :=
  m ((addr % 65536) &&& 1023)

theorem devRead_eq (m : Mem) (addr : Nat) : devRead m addr = m (addr % 1024) := by
  unfold devRead
  rw [and_1023_eq_mod, Nat.mod_mod_of_dvd addr (by norm_num)]

theorem devWrite_eq (m : Mem) (addr data : Nat) :
    devWrite m addr data =
      fun x => if x = addr % 1024 then data % 65536 else m x := by
  unfold devWrite
  rw [and_1023_eq_mod, and_65535_eq_mod, Nat.mod_mod_of_dvd addr (by norm_num),
    Nat.mod_mod]

/-! ### Claim C6 -/

/-- Loop of `eeprom_copy`: `eeprom_read` each of the 1024 addresses in
ascending order into the caller's buffer; `count` is the remaining trip
count. -/
def copyGo (m : Mem) (addr count : Nat) : List Nat :=
  match count with
  | 0 => []
  | count + 1 => devRead m addr :: copyGo m (addr + 1) count

/-- Device image produced by `eeprom_copy`. -/
def eeprom_copy_model (m : Mem) : List Nat := copyGo m 0 1024

/-- Loop of `eeprom_paste`: `eeprom_write(addr, buffer[addr])` for
`addr = 0 .. 0x3FF`. -/
def pasteGo (m : Mem) (buf : Nat → Nat) (addr count : Nat) : Mem :=
  match count with
  | 0 => m
  | count + 1 => pasteGo (devWrite m addr (buf addr)) buf (addr + 1) count

/-- Device state after `eeprom_paste(buffer)`. -/
def eeprom_paste_model (m : Mem) (buf : Nat → Nat) : Mem :=
  pasteGo m buf 0 1024

theorem copyGo_getD (m : Mem) :
    ∀ count addr k, k < count →
      (copyGo m addr count).getD k 0 = devRead m (addr + k) := by
  intro count
  induction count with
  | zero => intro addr k hk; omega
  | succ n ih =>
    intro addr k hk
    match k with
    | 0 => rfl
    | k + 1 =>
      have h := ih (addr + 1) k (by omega)
      rw [copyGo]
      simpa [Nat.add_assoc, Nat.add_comm 1 k] using h

theorem pasteGo_id (buf : Nat → Nat) :
    ∀ (count : Nat) (m : Mem) (addr : Nat),
      (∀ j, j < count → (buf (addr + j)) % 65536 = m ((addr + j) % 1024)) →
      pasteGo m buf addr count = m := by
  intro count
  induction count with
  | zero => intro m addr _; rfl
  | succ n ih =>
    intro m addr hbuf
    rw [pasteGo]
    have hm : devWrite m addr (buf addr) = m := by
      rw [devWrite_eq]
      funext x
      by_cases hx : x = addr % 1024
      · rw [if_pos hx, hx]
        have h0 := hbuf 0 (by omega)
        simpa using h0
      · rw [if_neg hx]
    rw [hm]
    exact ih m (addr + 1) fun j hj => by
      have h := hbuf (j + 1) (by omega)
      simpa [Nat.add_assoc, Nat.add_comm 1 j] using h

/-- C6: over the functional device model, `eeprom_copy` into a buffer
followed immediately by `eeprom_paste` from that buffer leaves every
address's stored word unchanged (the initial state holds 16-bit words, as
the data model requires). -/
theorem copy_paste_id (m : Mem) (hm : ∀ x, m x < 65536) :
    eeprom_paste_model m (fun i => (eeprom_copy_model m).getD i 0) = m := by
  unfold eeprom_paste_model
  apply pasteGo_id
  intro j hj
  unfold eeprom_copy_model
  simp only [Nat.zero_add]
  rw [copyGo_getD m 1024 0 j hj, devRead_eq]
  simp only [Nat.zero_add]
  have hj1024 : j % 1024 = j := Nat.mod_eq_of_lt hj
  rw [hj1024, Nat.mod_eq_of_lt (hm j)]

/-- Concrete memory state used by the C6 witness: every slot holds 7. -/
def constMem7 : Mem := fun _ => 7

/-- Witness for C6 on a concrete memory state. -/
theorem copy_paste_id_witness :
    (∀ x, constMem7 x < 65536) ∧
      eeprom_paste_model constMem7
        (fun i => (eeprom_copy_model constMem7).getD i 0) = constMem7 :=
  ⟨fun _ => by norm_num [constMem7],
   copy_paste_id constMem7 (fun _ => by norm_num [constMem7])⟩

/-! ### String pack/unpack

`eeprom_write_string` / `eeprom_read_string` over the functional device
model.  A C string is a `List Nat` of bytes; `chr s i` is `str[i]`, with
the terminator and the memory beyond it modelled as 0.  Loops are embedded
with an explicit `fuel` trip-count bound; exhausted fuel returns the loop's
normal exit state, and the chosen fuels strictly exceed the loops' possible
trip counts (each `eeprom_write_string` iteration needs `str[i] != 0`, so
`i < s.length`, and advances `i` by 2; each `eeprom_read_string` iteration
needs `i < max_len - 1` and advances `i` by at least 1). -/

def chr (s : List Nat) (i : Nat) : Nat := s.getD i 0

/-- All-zero device memory. -/
def zeroMem : Mem := fun _ => 0

/-- Loop of `eeprom_write_string`: while `str[i] != 0`, write
`word = (str[i] << 8) | (str[i+1] != 0 ? str[i+1] : 0)` to `start_addr++`
and advance `i` by 2. -/
def writeStringGo (s : List Nat) (fuel a i : Nat) (m : Mem) : Mem :=
  match fuel with
  | 0 => m
  | fuel + 1 =>
    if chr s i = 0 then m
    else
      writeStringGo s fuel ((a + 1) % 65536) (i + 2)
        (devWrite m a
          ((chr s i <<< 8) ||| (if chr s (i + 1) ≠ 0 then chr s (i + 1) else 0)))

/-- Device state after `eeprom_write_string(start_addr, str)`. -/
def eeprom_write_string_model (m : Mem) (a : Nat) (s : List Nat) : Mem :=
  writeStringGo s (s.length + 1) a 0 m

/-- The loop bound `max_len - 1` as computed on `size_t` (32-bit on the
target): when `max_len = 0` the subtraction wraps to `2^32 - 1`. -/
def szSub1 (maxLen : Nat) : Nat := (maxLen + 4294967295) % 4294967296

/-- Loop of `eeprom_read_string`, returning the bytes stored into `str` in
index order, the trailing-terminator store included.  Each iteration reads
the 16-bit `word` from `start_addr++`, stores its high byte, stores its low
byte if `i < max_len - 1` still holds, and stops when either byte of the
word is zero or the bound is reached. -/
def readStringGo (m : Mem) (fuel a maxLen i : Nat) : List Nat :=
  match fuel with
  | 0 => [0]
  | fuel + 1 =>
    if i < szSub1 maxLen then
      if i + 1 < szSub1 maxLen then
        if (devRead m a % 65536) >>> 8 = 0 ∨ (devRead m a % 65536) &&& 255 = 0 then
          [(devRead m a % 65536) >>> 8, (devRead m a % 65536) &&& 255, 0]
        else
          ((devRead m a % 65536) >>> 8) :: ((devRead m a % 65536) &&& 255) ::
            readStringGo m fuel ((a + 1) % 65536) maxLen (i + 2)
      else
        [(devRead m a % 65536) >>> 8, 0]
    else [0]

/-- Bytes stored by `eeprom_read_string(start_addr, str, max_len)`, in
index order starting at index 0. -/
def eeprom_read_string_model (m : Mem) (a maxLen : Nat) : List Nat :=
  readStringGo m (szSub1 maxLen + 1) a maxLen 0

/-! ### Claim C8 -/

theorem szSub1_eq (maxLen : Nat) (h1 : 1 ≤ maxLen)
    (h2 : maxLen ≤ 4294967296) : szSub1 maxLen = maxLen - 1 := by
  unfold szSub1
  omega

/-- Every exit path of the `eeprom_read_string` loop stores the trailing
terminator, so at least one store always happens. -/
theorem readStringGo_len_pos :
    ∀ (fuel : Nat) (m : Mem) (a maxLen i : Nat),
      1 ≤ (readStringGo m fuel a maxLen i).length := by
  intro fuel
  induction fuel with
  | zero => intro m a maxLen i; simp [readStringGo]
  | succ n ih =>
    intro m a maxLen i
    rw [readStringGo]
    split
    · split
      · split
        · simp
        · simp
      · simp
    · simp

/-- With `max_len >= 1`, every store lands at an index below `max_len`:
starting from index `i <= max_len - 1`, the list of stored bytes ends by
index `max_len - 1`. -/
theorem readStringGo_len_le :
    ∀ (fuel : Nat) (m : Mem) (a maxLen i : Nat),
      1 ≤ maxLen → maxLen ≤ 4294967296 → i ≤ maxLen - 1 →
      i + (readStringGo m fuel a maxLen i).length ≤ maxLen := by
  intro fuel
  induction fuel with
  | zero =>
    intro m a maxLen i h1 h2 hi
    simp only [readStringGo, List.length_cons, List.length_nil]
    omega
  | succ n ih =>
    intro m a maxLen i h1 h2 hi
    rw [readStringGo, szSub1_eq maxLen h1 h2]
    split
    · split
      · split
        · simp only [List.length_cons, List.length_nil]
          omega
        · simp only [List.length_cons]
          have h := ih m ((a + 1) % 65536) maxLen (i + 2) h1 h2 (by omega)
          omega
      · simp only [List.length_cons, List.length_nil]
        omega
    · simp only [List.length_cons, List.length_nil]
      omega

/-- C8: `eeprom_read_string` needs `max_len >= 1`.  When `max_len = 0` the
`size_t` loop bound `max_len - 1` underflows to `2^32 - 1` (so the count
guard never limits iteration) and the terminating store still happens —
at least one store into a zero-length buffer.  Under `max_len >= 1`, every
store into `str` is at an index strictly below `max_len`. -/
theorem read_string_precondition :
    szSub1 0 = 4294967295 ∧
      (∀ (m : Mem) (a : Nat), 1 ≤ (eeprom_read_string_model m a 0).length) ∧
      (∀ (m : Mem) (a maxLen : Nat), 1 ≤ maxLen → maxLen ≤ 4294967296 →
        (eeprom_read_string_model m a maxLen).length ≤ maxLen) := by
  refine ⟨by decide, ?_, ?_⟩
  · intro m a
    exact readStringGo_len_pos _ m a 0 0
  · intro m a maxLen h1 h2
    have h := readStringGo_len_le (szSub1 maxLen + 1) m a maxLen 0 h1 h2 (by omega)
    unfold eeprom_read_string_model
    omega

/-- Witness for C8 at a concrete memory and `max_len`. -/
theorem read_string_precondition_witness :
    1 ≤ (eeprom_read_string_model constMem7 0 0).length ∧
      (1 : Nat) ≤ 2 ∧ (2 : Nat) ≤ 4294967296 ∧
      (eeprom_read_string_model constMem7 0 2).length ≤ 2 :=
  ⟨read_string_precondition.2.1 constMem7 0, by decide, by norm_num,
   read_string_precondition.2.2 constMem7 0 2 (by decide) (by norm_num)⟩

/-! ### Claim C4 -/

/-- Pair-structural induction on byte lists (the string loops consume two
characters per 16-bit word). -/
theorem pairInduction {P : List Nat → Prop} (l : List Nat) (h0 : P [])
    (h1 : ∀ c, P [c]) (h2 : ∀ c d t, P t → P (c :: d :: t)) : P l :=
  match l with
  | [] => h0
  | [c] => h1 c
  | c :: d :: t => h2 c d t (pairInduction t h0 h1 h2)

/-- The 16-bit words `eeprom_write_string` packs a zero-free string into:
two bytes per word, high byte first, the last wordzero-padded in the low
byte when the length is odd. -/
def wordsOf : List Nat → List Nat
  | [] => []
  | [c] => [(c <<< 8) ||| 0]
  | c :: d :: t => ((c <<< 8) ||| d) :: wordsOf t

/-- Sequential word stores at consecutive (16-bit wrapped) addresses. -/
def storeWords : Mem → Nat → List Nat → Mem
  | m, _, [] => m
  | m, a, w :: ws => storeWords (devWrite m a w) ((a + 1) % 65536) ws

theorem modSlot (x k : Nat) : (x % 65536 + k) % 1024 = (x + k) % 1024 := by
  omega

theorem chr_eq_zero_of_le {s : List Nat} {i : Nat} (h : s.length ≤ i) :
    chr s i = 0 := by
  simp [chr, List.getD_eq_getElem?_getD, List.getElem?_eq_none h]

theorem chr_eq_getElem {s : List Nat} {i : Nat} (h : i < s.length) :
    chr s i = s[i] := by
  simp [chr, List.getD_eq_getElem?_getD, List.getElem?_eq_getElem h]

theorem getD_mem_of_lt : ∀ (l : List Nat) (k : Nat), k < l.length →
    l.getD k 0 ∈ l := by
  intro l
  induction l with
  | nil => intro k hk; simp at hk
  | cons x xs ih =>
    intro k hk
    match k with
    | 0 => simp
    | k + 1 =>
      have := ih k (by simpa using hk)
      simp only [List.getD_cons_succ]
      exact List.mem_cons_of_mem x this

/-- The `eeprom_write_string` loop on a zero-free string stores exactly the
packed words of the remaining suffix at consecutive addresses. -/
theorem writeStringGo_eq (s : List Nat) (hs : ∀ c ∈ s, c ≠ 0) :
    ∀ (fuel i a : Nat) (m : Mem), s.length ≤ i + 2 * fuel →
      writeStringGo s fuel a i m = storeWords m a (wordsOf (s.drop i)) := by
  intro fuel
  induction fuel with
  | zero =>
    intro i a m hlen
    rw [writeStringGo, List.drop_eq_nil_of_le (by omega)]
    simp [wordsOf, storeWords]
  | succ n ih =>
    intro i a m hlen
    rw [writeStringGo]
    by_cases hci : chr s i = 0
    · rw [if_pos hci]
      have hile : s.length ≤ i := by
        by_contra hlt
        push_neg at hlt
        exact hs s[i] (List.getElem_mem hlt) (by rw [← chr_eq_getElem hlt]; exact hci)
      rw [List.drop_eq_nil_of_le hile]
      simp [wordsOf, storeWords]
    · rw [if_neg hci]
      have hilt : i < s.length := by
        by_contra h
        push_neg at h
        exact hci (chr_eq_zero_of_le h)
      have hdrop : s.drop i = chr s i :: s.drop (i + 1) := by
        rw [List.drop_eq_getElem_cons hilt, chr_eq_getElem hilt]
      rw [ih (i + 2) ((a + 1) % 65536) _ (by omega)]
      by_cases hi1 : i + 1 < s.length
      · have hdrop1 : s.drop (i + 1) = chr s (i + 1) :: s.drop (i + 2) := by
          rw [List.drop_eq_getElem_cons hi1, chr_eq_getElem hi1]
        have hd : chr s (i + 1) ≠ 0 := by
          rw [chr_eq_getElem hi1]
          exact hs _ (List.getElem_mem hi1)
        rw [hdrop, hdrop1, if_pos hd]
        simp only [wordsOf, storeWords]
      · have hchr1 : chr s (i + 1) = 0 := chr_eq_zero_of_le (by omega)
        have hdrop1 : s.drop (i + 1) = [] := List.drop_eq_nil_of_le (by omega)
        have hdrop2 : s.drop (i + 2) = [] := List.drop_eq_nil_of_le (by omega)
        rw [hdrop, hdrop1, hdrop2, if_neg (by simp [hchr1])]
        simp only [wordsOf, storeWords, hchr1]

/-- Slots other than the ones written are untouched by `storeWords`. -/
theorem storeWords_unwritten :
    ∀ (ws : List Nat) (m : Mem) (a x : Nat),
      (∀ k, k < ws.length → x ≠ (a + k) % 1024) →
      storeWords m a ws x = m x := by
  intro ws
  induction ws with
  | nil => intro m a x _; rfl
  | cons w ws ih =>
    intro m a x hx
    rw [storeWords]
    have h1 : storeWords (devWrite m a w) ((a + 1) % 65536) ws x =
        devWrite m a w x := by
      apply ih
      intro k hk
      rw [modSlot (a + 1) k]
      have := hx (k + 1) (by simpa using Nat.succ_lt_succ hk)
      omega
    rw [h1, devWrite_eq]
    have := hx 0 (by simp)
    simp only [Nat.add_zero] at this
    exact if_neg this

/-- The `k`-th written slot holds the `k`-th word (masked to 16 bits),
provided at most 1024 words are stored so no later store aliases it. -/
theorem storeWords_getD :
    ∀ (ws : List Nat) (m : Mem) (a k : Nat), k < ws.length → ws.length ≤ 1024 →
      storeWords m a ws ((a + k) % 1024) = ws.getD k 0 % 65536 := by
  intro ws
  induction ws with
  | nil => intro m a k hk _; simp at hk
  | cons w ws ih =>
    intro m a k hk hlen
    rw [storeWords]
    match k with
    | 0 =>
      simp only [Nat.add_zero, List.getD_cons_zero]
      have h1 : storeWords (devWrite m a w) ((a + 1) % 65536) ws (a % 1024) =
          devWrite m a w (a % 1024) := by
        apply storeWords_unwritten
        intro j hj
        rw [modSlot (a + 1) j]
        have hj1023 : j + 1 ≤ 1023 := by
          simp only [List.length_cons] at hlen
          omega
        omega
      rw [h1, devWrite_eq]
      exact if_pos rfl
    | k + 1 =>
      simp only [List.getD_cons_succ]
      have hslot : (a + (k + 1)) % 1024 = ((a + 1) % 65536 + k) % 1024 := by
        rw [modSlot (a + 1) k]
        omega
      rw [hslot]
      exact ih (devWrite m a w) ((a + 1) % 65536) k (by simpa using hk)
        (by simp only [List.length_cons] at hlen; omega)

theorem shiftLeft8_or (c d : Nat) (hd : d < 256) :
    (c <<< 8) ||| d = 256 * c + d := by
  have h256 : (2 : Nat) ^ 8 = 256 := by norm_num
  rw [Nat.shiftLeft_eq, h256, Nat.mul_comm c 256]
  rw [← h256] at hd ⊢
  exact (Nat.mul_add_lt_is_or hd c).symm

theorem wordsOf_length (s : List Nat) :
    (wordsOf s).length = (s.length + 1) / 2 := by
  induction s using pairInduction with
  | h0 => simp [wordsOf]
  | h1 c => simp [wordsOf]
  | h2 c d t ih =>
    simp only [wordsOf, List.length_cons, ih]
    omega

theorem wordsOf_lt (s : List Nat) (hs : ∀ c ∈ s, c < 256) :
    ∀ w ∈ wordsOf s, w < 65536 := by
  induction s using pairInduction with
  | h0 => intro w hw; simp [wordsOf] at hw
  | h1 c =>
    intro w hw
    simp only [wordsOf, List.mem_singleton] at hw
    have hc := hs c (by simp)
    rw [hw, shiftLeft8_or c 0 (by norm_num)]
    omega
  | h2 c d t ih =>
    intro w hw
    simp only [wordsOf, List.mem_cons] at hw
    rcases hw with hw | hw
    · have hc := hs c (by simp)
      have hd := hs d (by simp)
      rw [hw, shiftLeft8_or c d hd]
      omega
    · exact ih (fun x hx => hs x (by simp [hx])) w hw

theorem takeWhile_ne_append (cs : List Nat) (hcs : ∀ c ∈ cs, c ≠ 0)
    (t : List Nat) : ((cs ++ 0 :: t).takeWhile fun c => c != 0) = cs := by
  induction cs with
  | nil => simp
  | cons c cs ih =>
    have hc : (c != 0) = true := by
      simpa using hcs c (List.mem_cons_self c cs)
    simp only [List.cons_append, List.takeWhile_cons, hc, if_true]
    rw [ih fun x hx => hcs x (List.mem_cons_of_mem c hx)]

/-- Reading back from a memory whose consecutive slots hold the packed
words of a zero-free string `cs`, followed (for even lengths) by a word
with zero high byte, yields exactly `cs`, a terminator, and possibly
further bytes past the terminator. -/
theorem readStringGo_spec (cs : List Nat) :
    ∀ (fuel : Nat) (m : Mem) (a maxLen i : Nat),
      (∀ c ∈ cs, 0 < c ∧ c < 256) →
      (∀ k, k < (wordsOf cs).length →
        m ((a + k) % 1024) = (wordsOf cs).getD k 0) →
      (cs.length % 2 = 0 →
        (m ((a + (wordsOf cs).length) % 1024) % 65536) >>> 8 = 0) →
      i + cs.length ≤ szSub1 maxLen →
      szSub1 maxLen ≤ i + fuel →
      ∃ t, readStringGo m fuel a maxLen i = cs ++ 0 :: t := by
  induction cs using pairInduction with
  | h0 =>
    intro fuel m a maxLen i _ _ hnext _ _
    have hn := hnext rfl
    simp only [wordsOf, List.length_nil, Nat.add_zero] at hn
    match fuel with
    | 0 => exact ⟨[], by simp [readStringGo]⟩
    | fuel + 1 =>
      rw [readStringGo]
      by_cases h1 : i < szSub1 maxLen
      · rw [if_pos h1]
        have hhi : (devRead m a % 65536) >>> 8 = 0 := by
          rw [devRead_eq]
          exact hn
        by_cases h2 : i + 1 < szSub1 maxLen
        · rw [if_pos h2, if_pos (Or.inl hhi)]
          exact ⟨[devRead m a % 65536 &&& 255, 0], by rw [hhi]; simp⟩
        · rw [if_neg h2]
          exact ⟨[0], by rw [hhi]; simp⟩
      · rw [if_neg h1]
        exact ⟨[], by simp⟩
  | h1 c =>
    intro fuel m a maxLen i hcs hmem _ hcap hfuel
    obtain ⟨hc0, hc256⟩ := hcs c (by simp)
    have hm0 : m (a % 1024) = 256 * c := by
      have h := hmem 0 (by simp [wordsOf])
      simp only [Nat.add_zero, wordsOf, List.getD_cons_zero] at h
      rw [h, shiftLeft8_or c 0 (by norm_num)]
      omega
    have hw : devRead m a % 65536 = 256 * c := by
      rw [devRead_eq, hm0]
      omega
    have h256 : (2 : Nat) ^ 8 = 256 := by norm_num
    have hhi : (devRead m a % 65536) >>> 8 = c := by
      rw [hw, Nat.shiftRight_eq_div_pow, h256]
      omega
    have hlo : (devRead m a % 65536) &&& 255 = 0 := by
      rw [hw, and_255_eq_mod]
      omega
    simp only [List.length_cons, List.length_nil] at hcap
    match fuel with
    | 0 => exact absurd hfuel (by omega)
    | fuel + 1 =>
      rw [readStringGo, if_pos (by omega)]
      by_cases h2 : i + 1 < szSub1 maxLen
      · rw [if_pos h2, if_pos (Or.inr hlo)]
        exact ⟨[0], by rw [hhi, hlo]; simp⟩
      · rw [if_neg h2]
        exact ⟨[], by rw [hhi]; simp⟩
  | h2 c d t ih =>
    intro fuel m a maxLen i hcs hmem hnext hcap hfuel
    obtain ⟨hc0, hc256⟩ := hcs c (by simp)
    obtain ⟨hd0, hd256⟩ := hcs d (by simp)
    have hm0 : m (a % 1024) = 256 * c + d := by
      have h := hmem 0 (by simp [wordsOf])
      simp only [Nat.add_zero, wordsOf, List.getD_cons_zero] at h
      rw [h, shiftLeft8_or c d hd256]
    have hw : devRead m a % 65536 = 256 * c + d := by
      rw [devRead_eq, hm0]
      omega
    have h256 : (2 : Nat) ^ 8 = 256 := by norm_num
    have hhi : (devRead m a % 65536) >>> 8 = c := by
      rw [hw, Nat.shiftRight_eq_div_pow, h256]
      omega
    have hlo : (devRead m a % 65536) &&& 255 = d := by
      rw [hw, and_255_eq_mod]
      omega
    simp only [List.length_cons] at hcap
    match fuel with
    | 0 => exact absurd hfuel (by omega)
    | fuel + 1 =>
      rw [readStringGo, if_pos (by omega), if_pos (by omega)]
      rw [if_neg (by simp only [hhi, hlo]; omega)]
      have hmem2 : ∀ k, k < (wordsOf t).length →
          m (((a + 1) % 65536 + k) % 1024) = (wordsOf t).getD k 0 := by
        intro k hk
        rw [modSlot (a + 1) k]
        have h := hmem (k + 1)
          (by simp only [wordsOf, List.length_cons]; omega)
        have hidx : a + 1 + k = a + (k + 1) := by omega
        rw [hidx]
        simpa only [wordsOf, List.getD_cons_succ] using h
      have hnext2 : t.length % 2 = 0 →
          (m (((a + 1) % 65536 + (wordsOf t).length) % 1024) % 65536) >>> 8 = 0 := by
        intro hpar
        rw [modSlot (a + 1) (wordsOf t).length]
        have h := hnext (by simp only [List.length_cons]; omega)
        have hidx : a + 1 + (wordsOf t).length = a + ((wordsOf t).length + 1) := by
          omega
        rw [hidx]
        simpa only [wordsOf, List.length_cons] using h
      obtain ⟨u, hu⟩ := ih fuel m ((a + 1) % 65536) maxLen (i + 2)
        (fun x hx => hcs x (by simp [hx])) hmem2 hnext2 (by omega) (by omega)
      exact ⟨u, by rw [hhi, hlo, hu]; simp⟩

/-- C4 counterexample: with the device memory initially all `0xFFFF` (the
erased state of the part), `eeprom_write_string` of the even-length string
"ab" at address 0 followed by `eeprom_read_string` with `max_len = 5 > 2`
does not recover "ab": the read runs past the written words into the
nonzero trailing memory and appends `0xFF 0xFF`. -/
def allOnesMem : Mem := fun _ => 65535

theorem write_read_string_not_recovered :
    ((eeprom_read_string_model
        (eeprom_write_string_model allOnesMem 0 [97, 98]) 0 5).takeWhile
      fun c => c != 0) ≠ [97, 98] := by decide

/-- C4 amended: over a zero-initialised device memory, for every zero-free
byte string `s` that fits the device (`|s| <= 2046`) and every start
address, `eeprom_write_string(a, s)` followed by
`eeprom_read_string(a, buf, max_len)` with `max_len > |s|` recovers
exactly `s` (the output buffer up to its first zero byte). -/
theorem write_read_string_roundtrip (s : List Nat) (a maxLen : Nat)
    (hs : ∀ c ∈ s, 0 < c ∧ c < 256)
    (hsl : s.length ≤ 2046)
    (hml : s.length < maxLen) (hml2 : maxLen ≤ 4294967296) :
    ((eeprom_read_string_model
        (eeprom_write_string_model zeroMem a s) a maxLen).takeWhile
      fun c => c != 0) = s := by
  have hs0 : ∀ c ∈ s, c ≠ 0 := fun c hc => Nat.pos_iff_ne_zero.mp (hs c hc).1
  have hW : eeprom_write_string_model zeroMem a s =
      storeWords zeroMem a (wordsOf s) := by
    unfold eeprom_write_string_model
    rw [writeStringGo_eq s hs0 (s.length + 1) 0 a zeroMem (by omega),
      List.drop_zero]
  have hWlen : (wordsOf s).length ≤ 1023 := by
    rw [wordsOf_length]
    omega
  have hmem : ∀ k, k < (wordsOf s).length →
      storeWords zeroMem a (wordsOf s) ((a + k) % 1024) =
        (wordsOf s).getD k 0 := by
    intro k hk
    rw [storeWords_getD (wordsOf s) zeroMem a k hk (by omega)]
    exact Nat.mod_eq_of_lt
      (wordsOf_lt s (fun c hc => (hs c hc).2) _ (getD_mem_of_lt _ k hk))
  have hnext : s.length % 2 = 0 →
      (storeWords zeroMem a (wordsOf s)
          ((a + (wordsOf s).length) % 1024) % 65536) >>> 8 = 0 := by
    intro _
    have hun : storeWords zeroMem a (wordsOf s)
        ((a + (wordsOf s).length) % 1024) =
          zeroMem ((a + (wordsOf s).length) % 1024) := by
      apply storeWords_unwritten
      intro k hk
      omega
    rw [hun]
    simp [zeroMem]
  have hm1 : 1 ≤ maxLen := by omega
  obtain ⟨t, ht⟩ := readStringGo_spec s (szSub1 maxLen + 1)
    (storeWords zeroMem a (wordsOf s)) a maxLen 0 hs hmem hnext
    (by rw [szSub1_eq maxLen hm1 hml2]; omega) (by omega)
  unfold eeprom_read_string_model
  rw [hW, ht]
  exact takeWhile_ne_append s hs0 t

/-- Witness for C4 at the demo's own string "Hi NC", start address 0x300
and `max_len = 8`. -/
theorem write_read_string_roundtrip_witness :
    (∀ c ∈ [72, 105, 32, 78, 67], 0 < c ∧ c < 256) ∧
      ([72, 105, 32, 78, 67] : List Nat).length ≤ 2046 ∧
      ([72, 105, 32, 78, 67] : List Nat).length < 8 ∧ (8 : Nat) ≤ 4294967296 ∧
      ((eeprom_read_string_model
          (eeprom_write_string_model zeroMem 0x300 [72, 105, 32, 78, 67])
          0x300 8).takeWhile fun c => c != 0) = [72, 105, 32, 78, 67] :=
  ⟨by decide, by decide, by decide, by norm_num,
   write_read_string_roundtrip [72, 105, 32, 78, 67] 0x300 8 (by decide)
     (by decide) (by decide) (by norm_num)⟩
